import Mathlib

/-!
Formal model of the color core in `src/color.rs` of the xcolor repository.

The Rust `u8` channels are modelled as `Fin 256`. The `f32` arithmetic of
`HSL::from_rgb` only ever meets finite values and is modelled exactly over
`ℚ`; the `f32` amount taken by `ARGB::interpolate` is modelled by the type
`F` below, which also carries the IEEE special values NaN and the two
infinities, so that the saturating `as u8` cast can be stated faithfully.
`ARGB::distance` returns a genuine square root and is modelled over `ℝ`.
The X server reply consumed by `window_rect` is abstracted to the two parts
the function reads: the reported depth and the raw byte buffer. Where a
claim turns on the binary32 roundings of the finite arithmetic, those
roundings are modelled exactly by `rnd32` below: round to nearest, ties
to even, at 24 bits of precision.
-/

/-- The Rust struct `ARGB`: four 8-bit channels alpha, red, green, blue. -/
structure ARGB where
  a : Fin 256
  r : Fin 256
  g : Fin 256
  b : Fin 256
deriving DecidableEq

/-- The constant `ARGB::TRANSPARENT`. -/
def ARGB.TRANSPARENT : ARGB := ⟨0, 0, 0, 0⟩

/-- The constant `ARGB::BLACK`. -/
def ARGB.BLACK : ARGB := ⟨0xff, 0, 0, 0⟩

/-- The constant `ARGB::WHITE`. -/
def ARGB.WHITE : ARGB := ⟨0xff, 0xff, 0xff, 0xff⟩

/-- The constructor `ARGB::new`. -/
def ARGB.new (a r g b : Fin 256) : ARGB := ⟨a, r, g, b⟩

/-- The helper `compact` nested in `ARGB::is_compactable`:
on a byte `n` it tests `(n >> 4) == (n & 0xf)`. -/
def compact (n : Fin 256) : Bool := (n.val >>> 4) == (n.val &&& 0xf)

/-- The method `ARGB::is_compactable`. -/
def ARGB.is_compactable (self : ARGB) : Bool :=
  compact self.r && compact self.g && compact self.b

/-- The method `ARGB::distance`: the Euclidean distance over the red,
green and blue channels of the two colors; the alpha fields are not read. -/
noncomputable def ARGB.distance (self other : ARGB) : ℝ :=
  Real.sqrt (((other.r.val : ℝ) - (self.r.val : ℝ)) ^ 2
    + ((other.g.val : ℝ) - (self.g.val : ℝ)) ^ 2
    + ((other.b.val : ℝ) - (self.b.val : ℝ)) ^ 2)

/-- The method `ARGB::is_dark`:
`self.distance(Self::BLACK) < self.distance(Self::WHITE)`. -/
def ARGB.is_dark (self : ARGB) : Prop :=
  self.distance ARGB.BLACK < self.distance ARGB.WHITE

/-- Model of an `f32` value as consumed by `ARGB::interpolate`: either a
finite value, carried exactly as a rational, or one of the IEEE special
values NaN, plus infinity, minus infinity. -/
inductive F where
  | nan : F
  | inf : F
  | ninf : F
  | fin : ℚ → F
deriving DecidableEq

/-- IEEE evaluation of `1.0 - x` on an `F` value. -/
def F.oneSub : F → F
  | .nan => .nan
  | .inf => .ninf
  | .ninf => .inf
  | .fin q => .fin (1 - q)

/-- IEEE multiplication of an `F` value by a finite value, as in
`x * f32::from(b)`: NaN propagates and an infinity times zero is NaN. -/
def F.mulFin : F → ℚ → F
  | .nan, _ => .nan
  | .inf, q => if 0 < q then .inf else if q < 0 then .ninf else .nan
  | .ninf, q => if 0 < q then .ninf else if q < 0 then .inf else .nan
  | .fin p, q => .fin (p * q)

/-- IEEE addition of two `F` values: NaN propagates and the sum of two
opposite infinities is NaN. -/
def F.add : F → F → F
  | .nan, _ => .nan
  | _, .nan => .nan
  | .inf, .ninf => .nan
  | .ninf, .inf => .nan
  | .inf, _ => .inf
  | _, .inf => .inf
  | .ninf, _ => .ninf
  | _, .ninf => .ninf
  | .fin p, .fin q => .fin (p + q)

/-- IEEE `f32::ceil` on an `F` value. -/
def F.ceil : F → F
  | .nan => .nan
  | .inf => .inf
  | .ninf => .ninf
  | .fin q => .fin (⌈q⌉ : ℚ)

/-- The Rust saturating cast `as u8` on an `f32`: NaN and everything at or
below 0 give 0, everything at or above 255 gives 255, and a finite value in
between is truncated toward zero. -/
def F.toU8 : F → Fin 256
  | .nan => 0
  | .ninf => 0
  | .inf => 255
  | .fin q =>
    if q < 0 then 0
    else if h : (255 : ℚ) < q then 255
    else ⟨⌊q⌋.toNat, by
      have h1 : ⌊q⌋ ≤ ⌊(255 : ℚ)⌋ := Int.floor_le_floor (le_of_not_lt h)
      have h2 : ⌊(255 : ℚ)⌋ = (255 : ℤ) := by norm_num
      omega⟩

/-- The helper `lerp` nested in `ARGB::interpolate`:
`((1.0 - x) * f32::from(a) + x * f32::from(b)).ceil() as u8`. -/
def lerp (a b : Fin 256) (x : F) : Fin 256 :=
  F.toU8 (F.ceil (F.add (F.mulFin (F.oneSub x) (a.val : ℚ)) (F.mulFin x (b.val : ℚ))))

/-- The method `ARGB::interpolate`: the red, green and blue channels are
interpolated with `lerp`; the alpha channel is taken from `self`. -/
def ARGB.interpolate (self other : ARGB) (amount : F) : ARGB :=
  { a := self.a
    r := lerp self.r other.r amount
    g := lerp self.g other.g amount
    b := lerp self.b other.b amount }

/-- The method `ARGB::lighten`. -/
def ARGB.lighten (self : ARGB) (amount : F) : ARGB :=
  self.interpolate ARGB.WHITE amount

/-- The method `ARGB::darken`. -/
def ARGB.darken (self : ARGB) (amount : F) : ARGB :=
  self.interpolate ARGB.BLACK amount

/-- The Rust iterator `data.chunks(4)`: consecutive chunks of four bytes,
with a last chunk of fewer than four bytes when the length is not a
multiple of four. -/
def chunks4 {α : Type} : List α → List (List α)
  | a :: b :: c :: d :: rest => [a, b, c, d] :: chunks4 rest
  | [] => []
  | l => [l]

/-- The decoding loop of `window_rect`: for each chunk it pushes
`ARGB::new(0xff, chunk[2], chunk[1], chunk[0])`. An out-of-bounds chunk
index, which in Rust is a panic, is modelled as `none`. -/
def decodeChunks : List (List (Fin 256)) → Option (List ARGB)
  | [] => some []
  | chunk :: rest =>
    match chunk.get? 2, chunk.get? 1, chunk.get? 0 with
    | some c2, some c1, some c0 =>
      (decodeChunks rest).map (fun ps => ARGB.new 0xff c2 c1 c0 :: ps)
    | _, _, _ => none

/-- The error message built by `window_rect` for a depth other than 24. -/
def unsupportedDepthMsg : String := "Unsupported color depth"

/-- The function `window_rect`, modelled at the decoding boundary: the X
server reply is abstracted to its reported `depth` and its raw byte buffer
`data`. The outer `Option` models a Rust panic as `none`; the inner
`Except` is the returned `Result`. -/
def window_rect (depth : ℕ) (data : List (Fin 256)) :
    Option (Except String (List ARGB)) :=
  if depth ≠ 24 then some (Except.error unsupportedDepthMsg)
  else (decodeChunks (chunks4 data)).map Except.ok

/-- Rust `f32::max` on finite values: `if x < y then y else x`. The NaN
seed of the fold in `HSL::from_rgb` disappears after the first step since
`f32::max(NaN, x) = x`. -/
def fmax (x y : ℚ) : ℚ := if x < y then y else x

/-- Rust `f32::min` on finite values: `if y < x then y else x`. -/
def fmin (x y : ℚ) : ℚ := if y < x then y else x

/-- The Rust struct `HSL` with its three `f32` fields, modelled over `ℚ`. -/
structure HSL where
  h : ℚ
  s : ℚ
  l : ℚ
deriving DecidableEq

/-- Rust `f32::round`: round half away from zero. -/
def rustRound (x : ℚ) : ℤ := if 0 ≤ x then ⌊x + 1 / 2⌋ else ⌈x - 1 / 2⌉

/-- The method `HSL::from_rgb`. The NaN-seeded folds over `vec![r, g, b]`
compute `fmax (fmax r g) b` and `fmin (fmin r g) b`, since `f32::max(NaN, x)`
is `x` and likewise for `f32::min`. -/
def HSL.from_rgb (rgb : ARGB) : HSL :=
  let r : ℚ := (rgb.r.val : ℚ) / 255
  let g : ℚ := (rgb.g.val : ℚ) / 255
  let b : ℚ := (rgb.b.val : ℚ) / 255
  let mx : ℚ := fmax (fmax r g) b
  let mn : ℚ := fmin (fmin r g) b
  let l : ℚ := (rustRound ((mx + mn) / 2 * 100) : ℚ)
  if mx ≠ mn then
    let delta : ℚ := mx - mn
    let s : ℚ :=
      if 50 < l then delta / (2 - mx - mn) * 100 else delta / (mx + mn) * 100
    let h : ℚ :=
      if mx = r then (g - b) / delta + (if g < b then 6 else 0)
      else if mx = g then (b - r) / delta + 2
      else if mx = b then (r - g) / delta + 4
      else 0
    { h := (rustRound (h * 60) : ℚ), s := (rustRound s : ℚ), l := l }
  else
    { h := 0, s := 0, l := l }

/-- The reference algorithm of section 4.2 of the specification, written
from the spec text for the refinement theorem: normalize, take max and
min, round the lightness percentage, short-circuit the achromatic case,
pick the saturation denominator by comparing the already rounded lightness
against 50, select the hue base by the maximal channel with tie priority
red over green over blue, and round after multiplying by 60. -/
def hslSpec (rgb : ARGB) : HSL :=
  let r : ℚ := (rgb.r.val : ℚ) / 255
  let g : ℚ := (rgb.g.val : ℚ) / 255
  let b : ℚ := (rgb.b.val : ℚ) / 255
  let mx : ℚ := fmax (fmax r g) b
  let mn : ℚ := fmin (fmin r g) b
  let l : ℚ := (rustRound ((mx + mn) / 2 * 100) : ℚ)
  if mx = mn then { h := 0, s := 0, l := l }
  else
    let delta : ℚ := mx - mn
    let s : ℚ :=
      (rustRound ((if 50 < l then delta / (2 - mx - mn) else delta / (mx + mn)) * 100) : ℚ)
    let hbase : ℚ :=
      if mx = r then (g - b) / delta + (if g < b then 6 else 0)
      else if mx = g then (b - r) / delta + 2
      else (r - g) / delta + 4
    { h := (rustRound (hbase * 60) : ℚ), s := s, l := l }

/-- Convenience constructor for a concrete byte used in concrete inputs. -/
def byte (n : ℕ) : Fin 256 := ⟨n % 256, Nat.mod_lt _ (by norm_num)⟩

lemma byte_val (n : ℕ) : (byte n).val = n % 256 := rfl

lemma fmax_eq_max (x y : ℚ) : fmax x y = max x y := by
  unfold fmax
  rcases lt_or_ge x y with h | h
  · rw [if_pos h, max_eq_right h.le]
  · rw [if_neg (not_lt.mpr h), max_eq_left h]

lemma fmin_eq_min (x y : ℚ) : fmin x y = min x y := by
  unfold fmin
  rcases lt_or_ge y x with h | h
  · rw [if_pos h, min_eq_right h.le]
  · rw [if_neg (not_lt.mpr h), min_eq_left (le_of_not_lt (not_lt.mpr h))]

lemma fmax_choice (x y : ℚ) : fmax x y = x ∨ fmax x y = y := by
  unfold fmax
  split_ifs <;> simp

lemma rustRound_nonneg {x : ℚ} (hx : 0 ≤ x) : 0 ≤ rustRound x := by
  unfold rustRound
  rw [if_pos hx]
  exact Int.le_floor.mpr (by push_cast; linarith)

lemma rustRound_le {x : ℚ} {B : ℤ} (hx : 0 ≤ x) (hB : x ≤ (B : ℚ)) : rustRound x ≤ B := by
  unfold rustRound
  rw [if_pos hx]
  have : ⌊x + 1 / 2⌋ < B + 1 := Int.floor_lt.mpr (by push_cast; linarith)
  omega

lemma channel_nonneg (c : Fin 256) : (0 : ℚ) ≤ (c.val : ℚ) / 255 := by positivity

lemma channel_le_one (c : Fin 256) : ((c.val : ℚ)) / 255 ≤ 1 := by
  have h : (c.val : ℚ) ≤ 255 := by
    have := c.isLt
    exact_mod_cast Nat.le_of_lt_succ this
  linarith

set_option maxRecDepth 10000 in
lemma compact_iff_nibbles : ∀ n : Fin 256, compact n = true ↔ n.val / 16 = n.val % 16 := by
  decide

/-- Claim C9: `is_compactable` holds exactly when, in each of the red,
green and blue channels, the high nibble equals the low nibble; the alpha
channel is ignored, and the five reference examples evaluate as stated. -/
theorem is_compactable_characterization :
    ∀ c : ARGB,
      (c.is_compactable = true ↔
        (c.r.val / 16 = c.r.val % 16 ∧ c.g.val / 16 = c.g.val % 16 ∧
          c.b.val / 16 = c.b.val % 16))
      ∧ (∀ al : Fin 256, (ARGB.mk al c.r c.g c.b).is_compactable = c.is_compactable)
      ∧ ARGB.is_compactable (ARGB.new (byte 255) (byte 255) (byte 255) (byte 255)) = true
      ∧ ARGB.is_compactable (ARGB.new (byte 255) (byte 238) (byte 238) (byte 238)) = true
      ∧ ARGB.is_compactable (ARGB.new (byte 255) (byte 0) (byte 0) (byte 0)) = true
      ∧ ARGB.is_compactable (ARGB.new (byte 255) (byte 247) (byte 247) (byte 247)) = false
      ∧ ARGB.is_compactable (ARGB.new (byte 255) (byte 255) (byte 247) (byte 255)) = false := by
  intro c
  refine ⟨?_, fun al => rfl, by decide, by decide, by decide, by decide, by decide⟩
  simp [ARGB.is_compactable, Bool.and_eq_true, compact_iff_nibbles, and_assoc]

/-- Claim C7: `distance` is the Euclidean distance over the red, green and
blue channels, it does not depend on either alpha channel, and it is
symmetric in its two arguments. -/
theorem distance_euclidean_rgb_symm :
    ∀ x y : ARGB,
      ARGB.distance x y
          = Real.sqrt (((y.r.val : ℝ) - (x.r.val : ℝ)) ^ 2
              + ((y.g.val : ℝ) - (x.g.val : ℝ)) ^ 2
              + ((y.b.val : ℝ) - (x.b.val : ℝ)) ^ 2)
      ∧ (∀ a1 a2 : Fin 256,
          ARGB.distance (ARGB.mk a1 x.r x.g x.b) (ARGB.mk a2 y.r y.g y.b)
            = ARGB.distance x y)
      ∧ ARGB.distance x y = ARGB.distance y x := by
  intro x y
  refine ⟨rfl, fun a1 a2 => rfl, ?_⟩
  unfold ARGB.distance
  congr 1
  ring

lemma distance_black_eq (c : ARGB) :
    c.distance ARGB.BLACK
      = Real.sqrt ((c.r.val : ℝ) ^ 2 + (c.g.val : ℝ) ^ 2 + (c.b.val : ℝ) ^ 2) := by
  unfold ARGB.distance ARGB.BLACK
  congr 1
  rw [show (((0 : Fin 256)).val : ℝ) = 0 from by norm_num]
  ring

lemma distance_white_eq (c : ARGB) :
    c.distance ARGB.WHITE
      = Real.sqrt ((255 - (c.r.val : ℝ)) ^ 2 + (255 - (c.g.val : ℝ)) ^ 2
          + (255 - (c.b.val : ℝ)) ^ 2) := by
  unfold ARGB.distance ARGB.WHITE
  congr 1

/-- Claim C8: `is_dark` holds exactly when the distance to pure black
(0,0,0) is strictly smaller than the distance to pure white (255,255,255);
equivalently, by strict monotonicity of the square root, exactly when the
corresponding sums of squared channel differences compare strictly. -/
theorem is_dark_iff_closer_to_black (c : ARGB) :
    (c.is_dark ↔
      Real.sqrt ((c.r.val : ℝ) ^ 2 + (c.g.val : ℝ) ^ 2 + (c.b.val : ℝ) ^ 2)
        < Real.sqrt ((255 - (c.r.val : ℝ)) ^ 2 + (255 - (c.g.val : ℝ)) ^ 2
            + (255 - (c.b.val : ℝ)) ^ 2))
    ∧ (c.is_dark ↔
      (c.r.val : ℝ) ^ 2 + (c.g.val : ℝ) ^ 2 + (c.b.val : ℝ) ^ 2
        < (255 - (c.r.val : ℝ)) ^ 2 + (255 - (c.g.val : ℝ)) ^ 2
            + (255 - (c.b.val : ℝ)) ^ 2) := by
  have h : c.is_dark ↔
      Real.sqrt ((c.r.val : ℝ) ^ 2 + (c.g.val : ℝ) ^ 2 + (c.b.val : ℝ) ^ 2)
        < Real.sqrt ((255 - (c.r.val : ℝ)) ^ 2 + (255 - (c.g.val : ℝ)) ^ 2
            + (255 - (c.b.val : ℝ)) ^ 2) := by
    unfold ARGB.is_dark
    rw [distance_black_eq, distance_white_eq]
  refine ⟨h, h.trans (Real.sqrt_lt_sqrt_iff (by positivity))⟩

/-- Claim C5: `window_rect` returns the unsupported-depth error exactly
when the reported depth differs from 24; for depth 24 that error is never
returned, and in the error case the function returns before any pixel is
decoded. -/
theorem window_rect_unsupported_depth_iff (depth : ℕ) (data : List (Fin 256)) :
    window_rect depth data = some (Except.error unsupportedDepthMsg) ↔ depth ≠ 24 := by
  unfold window_rect
  by_cases h : depth = 24
  · subst h
    simp only [ne_eq, not_true_eq_false, if_false, iff_false]
    cases hd : decodeChunks (chunks4 data) <;> simp [hd]
  · simp [h]

lemma decode_all : ∀ (n : ℕ) (data : List (Fin 256)), data.length = 4 * n →
    ∃ pixels, decodeChunks (chunks4 data) = some pixels ∧ pixels.length = n ∧
      ∀ i, i < n → pixels.get? i
        = some (ARGB.new 0xff (data.getD (4 * i + 2) 0) (data.getD (4 * i + 1) 0)
            (data.getD (4 * i) 0)) := by
  intro n
  induction n with
  | zero =>
    intro data hlen
    rw [Nat.mul_zero, List.length_eq_zero] at hlen
    subst hlen
    exact ⟨[], rfl, rfl, fun i hi => absurd hi (by omega)⟩
  | succ m ih =>
    intro data hlen
    cases data with
    | nil => simp only [List.length_nil] at hlen; omega
    | cons a t1 =>
    cases t1 with
    | nil => simp only [List.length_cons, List.length_nil] at hlen; omega
    | cons b t2 =>
    cases t2 with
    | nil => simp only [List.length_cons, List.length_nil] at hlen; omega
    | cons c t3 =>
    cases t3 with
    | nil => simp only [List.length_cons, List.length_nil] at hlen; omega
    | cons d rest =>
    have hrest : rest.length = 4 * m := by
      simp only [List.length_cons] at hlen
      omega
    obtain ⟨ps, hps, hlen2, hget⟩ := ih rest hrest
    refine ⟨ARGB.new 0xff c b a :: ps, ?_, by simp [hlen2], ?_⟩
    · rw [show chunks4 (a :: b :: c :: d :: rest) = [a, b, c, d] :: chunks4 rest from rfl]
      simp only [decodeChunks, List.get?, hps, Option.map_some']
    · intro i hi
      cases i with
      | zero => rfl
      | succ j =>
        have hj : j < m := by omega
        have hIH := hget j hj
        have e2 : (a :: b :: c :: d :: rest).getD (4 * (j + 1) + 2) 0
            = rest.getD (4 * j + 2) 0 := by
          rw [show 4 * (j + 1) + 2 = 4 * j + 2 + 4 from by ring]
          rfl
        have e1 : (a :: b :: c :: d :: rest).getD (4 * (j + 1) + 1) 0
            = rest.getD (4 * j + 1) 0 := by
          rw [show 4 * (j + 1) + 1 = 4 * j + 1 + 4 from by ring]
          rfl
        have e0 : (a :: b :: c :: d :: rest).getD (4 * (j + 1)) 0
            = rest.getD (4 * j) 0 := by
          rw [show 4 * (j + 1) = 4 * j + 4 from by ring]
          rfl
        rw [List.get?_cons_succ, e2, e1, e0]
        exact hIH

/-- Claim C6: for a depth-24 reply whose buffer has length `4 * w * h`,
`window_rect` succeeds with exactly `w * h` colors in buffer order, the
i-th built from bytes `4i`, `4i+1`, `4i+2` as blue, green, red with alpha
forced to 255, and the chunk indexing never leaves the buffer. -/
theorem window_rect_decodes_rect (w h : ℕ) (data : List (Fin 256))
    (hlen : data.length = 4 * (w * h)) :
    ∃ pixels, window_rect 24 data = some (Except.ok pixels)
      ∧ pixels.length = w * h
      ∧ ∀ i, i < w * h → pixels.get? i
          = some (ARGB.new 0xff (data.getD (4 * i + 2) 0) (data.getD (4 * i + 1) 0)
              (data.getD (4 * i) 0)) := by
  obtain ⟨ps, hps, h1, h2⟩ := decode_all (w * h) data hlen
  refine ⟨ps, ?_, h1, h2⟩
  unfold window_rect
  simp [hps]

/-- Witness for C6 at the reference buffer `[0x56, 0x34, 0x12, 0x00]`. -/
theorem window_rect_decodes_rect_witness :
    ∃ pixels,
      window_rect 24 [byte 0x56, byte 0x34, byte 0x12, byte 0x00]
          = some (Except.ok pixels)
      ∧ pixels.length = 1 * 1
      ∧ ∀ i, i < 1 * 1 → pixels.get? i
          = some (ARGB.new 0xff
              ([byte 0x56, byte 0x34, byte 0x12, byte 0x00].getD (4 * i + 2) 0)
              ([byte 0x56, byte 0x34, byte 0x12, byte 0x00].getD (4 * i + 1) 0)
              ([byte 0x56, byte 0x34, byte 0x12, byte 0x00].getD (4 * i) 0)) :=
  window_rect_decodes_rect 1 1 [byte 0x56, byte 0x34, byte 0x12, byte 0x00] rfl

lemma channel_cast_le (a : Fin 256) : ((a.val : ℚ)) ≤ 255 := by
  have h := a.isLt
  exact_mod_cast Nat.le_of_lt_succ h

lemma lerp_fin_val (a b : Fin 256) (q : ℚ) (h0 : 0 ≤ q) (h1 : q ≤ 1) :
    ((lerp a b (F.fin q)).val : ℤ) = ⌈(1 - q) * (a.val : ℚ) + q * (b.val : ℚ)⌉ := by
  have ha : (0 : ℚ) ≤ (a.val : ℚ) := by positivity
  have hb : (0 : ℚ) ≤ (b.val : ℚ) := by positivity
  have ha255 := channel_cast_le a
  have hb255 := channel_cast_le b
  have hv0 : 0 ≤ (1 - q) * (a.val : ℚ) + q * (b.val : ℚ) :=
    add_nonneg (mul_nonneg (by linarith) ha) (mul_nonneg h0 hb)
  have hv255 : (1 - q) * (a.val : ℚ) + q * (b.val : ℚ) ≤ 255 := by nlinarith
  have hc0 : (0 : ℤ) ≤ ⌈(1 - q) * (a.val : ℚ) + q * (b.val : ℚ)⌉ := Int.ceil_nonneg hv0
  have hc255 : ⌈(1 - q) * (a.val : ℚ) + q * (b.val : ℚ)⌉ ≤ 255 :=
    Int.ceil_le.mpr (by exact_mod_cast hv255)
  simp only [lerp, F.oneSub, F.mulFin, F.add, F.ceil, F.toU8]
  rw [if_neg (not_lt.mpr (by exact_mod_cast hc0)), dif_neg (not_lt.mpr (by exact_mod_cast hc255))]
  simp only [Int.floor_intCast]
  exact Int.toNat_of_nonneg hc0

lemma lerp_zero (a b : Fin 256) : lerp a b (F.fin 0) = a := by
  have h := lerp_fin_val a b 0 le_rfl zero_le_one
  have hv : ((lerp a b (F.fin 0)).val : ℤ) = (a.val : ℤ) := by
    rw [h]
    norm_num [Int.ceil_intCast]
  exact Fin.ext (by exact_mod_cast hv)

lemma lerp_one (a b : Fin 256) : lerp a b (F.fin 1) = b := by
  have h := lerp_fin_val a b 1 zero_le_one le_rfl
  have hv : ((lerp a b (F.fin 1)).val : ℤ) = (b.val : ℤ) := by
    rw [h]
    norm_num [Int.ceil_intCast]
  exact Fin.ext (by exact_mod_cast hv)

/-- Counterexample to claim C3: at amount 1 the result keeps the alpha of
the first argument, so it differs from the second argument when the two
alpha channels differ. -/
theorem interpolate_one_alpha_counterexample :
    ARGB.interpolate (ARGB.new (byte 0) (byte 0) (byte 0) (byte 0))
        (ARGB.new (byte 255) (byte 0) (byte 0) (byte 0)) (F.fin 1)
      ≠ ARGB.new (byte 255) (byte 0) (byte 0) (byte 0) := by
  have ha : (ARGB.interpolate (ARGB.new (byte 0) (byte 0) (byte 0) (byte 0))
      (ARGB.new (byte 255) (byte 0) (byte 0) (byte 0)) (F.fin 1)).a
      ≠ (ARGB.new (byte 255) (byte 0) (byte 0) (byte 0)).a := by decide
  exact fun heq => ha (congrArg ARGB.a heq)

/-- Claim C3 as amended: `interpolate` at amount 0 returns the first color
exactly; at amount 1 it returns the red, green and blue channels of the
second color while the alpha channel stays that of the first color (so it
equals the second color exactly when the two alphas agree). -/
theorem interpolate_endpoints (x y : ARGB) :
    x.interpolate y (F.fin 0) = x
    ∧ (x.interpolate y (F.fin 1)).r = y.r
    ∧ (x.interpolate y (F.fin 1)).g = y.g
    ∧ (x.interpolate y (F.fin 1)).b = y.b
    ∧ (x.interpolate y (F.fin 1)).a = x.a := by
  refine ⟨?_, lerp_one x.r y.r, lerp_one x.g y.g, lerp_one x.b y.b, rfl⟩
  show ARGB.mk x.a (lerp x.r y.r (F.fin 0)) (lerp x.g y.g (F.fin 0))
      (lerp x.b y.b (F.fin 0)) = x
  rw [lerp_zero, lerp_zero, lerp_zero]

/-- Claim C10: `interpolate` is total over the modelled f32 amounts: its
output channels never exceed 255, a NaN amount yields zeroed color
channels, and the saturating cast sends NaN and negative infinity to 0,
positive infinity to 255, negative finite values to 0 and finite values
above 255 to 255. -/
theorem interpolate_total_and_cast_saturates :
    (∀ (x y : ARGB) (am : F),
        (x.interpolate y am).r.val ≤ 255 ∧ (x.interpolate y am).g.val ≤ 255
          ∧ (x.interpolate y am).b.val ≤ 255)
    ∧ (∀ x y : ARGB, x.interpolate y F.nan = ARGB.new x.a 0 0 0)
    ∧ F.toU8 F.nan = 0 ∧ F.toU8 F.ninf = 0 ∧ F.toU8 F.inf = 255
    ∧ (∀ q : ℚ, q < 0 → F.toU8 (F.fin q) = 0)
    ∧ (∀ q : ℚ, 255 < q → F.toU8 (F.fin q) = 255) := by
  refine ⟨fun x y am => ⟨Nat.le_of_lt_succ (x.interpolate y am).r.isLt,
      Nat.le_of_lt_succ (x.interpolate y am).g.isLt,
      Nat.le_of_lt_succ (x.interpolate y am).b.isLt⟩,
    fun x y => rfl, rfl, rfl, rfl, fun q hq => ?_, fun q hq => ?_⟩
  · simp only [F.toU8]
    rw [if_pos hq]
  · simp only [F.toU8]
    rw [if_neg (not_lt.mpr (by linarith)), dif_pos hq]

/-- Witness for C10 at a negative and an oversized finite amount. -/
theorem interpolate_total_and_cast_saturates_witness :
    F.toU8 (F.fin (-7)) = 0 ∧ F.toU8 (F.fin 300) = 255 :=
  ⟨interpolate_total_and_cast_saturates.2.2.2.2.2.1 (-7) (by norm_num),
    interpolate_total_and_cast_saturates.2.2.2.2.2.2 300 (by norm_num)⟩

/-- Counterexample to claim C1: on the color with red 255, green 0, blue 1,
the computed hue is exactly 360, so the hue is not strictly below 360. -/
theorem hsl_hue_reaches_360 :
    (HSL.from_rgb (ARGB.new (byte 255) (byte 255) (byte 0) (byte 1))).h = 360
    ∧ ¬ (HSL.from_rgb (ARGB.new (byte 255) (byte 255) (byte 0) (byte 1))).h < 360 := by
  have h : (HSL.from_rgb (ARGB.new (byte 255) (byte 255) (byte 0) (byte 1))).h = 360 := by
    norm_num [HSL.from_rgb, ARGB.new, byte_val, fmax, fmin, rustRound, Int.ceil_eq_iff]
  exact ⟨h, by rw [h]; exact lt_irrefl 360⟩

/-- Claim C1 as amended: for every color the computed hue lies in the
closed interval [0,360] (the bound 360 is attained), the saturation in
[0,100] and the lightness in [0,100]. -/
theorem hsl_components_in_range (c : ARGB) :
    0 ≤ (HSL.from_rgb c).h ∧ (HSL.from_rgb c).h ≤ 360
    ∧ 0 ≤ (HSL.from_rgb c).s ∧ (HSL.from_rgb c).s ≤ 100
    ∧ 0 ≤ (HSL.from_rgb c).l ∧ (HSL.from_rgb c).l ≤ 100 := by
  have hr0 := channel_nonneg c.r
  have hg0 := channel_nonneg c.g
  have hb0 := channel_nonneg c.b
  have hr1 := channel_le_one c.r
  have hg1 := channel_le_one c.g
  have hb1 := channel_le_one c.b
  simp only [HSL.from_rgb, fmax_eq_max, fmin_eq_min]
  set R : ℚ := (c.r.val : ℚ) / 255
  set G : ℚ := (c.g.val : ℚ) / 255
  set B : ℚ := (c.b.val : ℚ) / 255
  set MX : ℚ := max (max R G) B with hMXdef
  set MN : ℚ := min (min R G) B with hMNdef
  have hRmx : R ≤ MX := le_max_of_le_left (le_max_left R G)
  have hGmx : G ≤ MX := le_max_of_le_left (le_max_right R G)
  have hBmx : B ≤ MX := le_max_right (max R G) B
  have hmnR : MN ≤ R := (min_le_left (min R G) B).trans (min_le_left R G)
  have hmnG : MN ≤ G := (min_le_left (min R G) B).trans (min_le_right R G)
  have hmnB : MN ≤ B := min_le_right (min R G) B
  have hMX1 : MX ≤ 1 := max_le (max_le hr1 hg1) hb1
  have hMN0 : 0 ≤ MN := le_min (le_min hr0 hg0) hb0
  have hMNMX : MN ≤ MX := hmnR.trans hRmx
  have hLarg0 : 0 ≤ (MX + MN) / 2 * 100 := by linarith
  have hLarg100 : (MX + MN) / 2 * 100 ≤ ((100 : ℤ) : ℚ) := by push_cast; linarith
  have hL0 : (0 : ℚ) ≤ ((rustRound ((MX + MN) / 2 * 100) : ℤ) : ℚ) := by
    exact_mod_cast rustRound_nonneg hLarg0
  have hL100 : ((rustRound ((MX + MN) / 2 * 100) : ℤ) : ℚ) ≤ 100 := by
    exact_mod_cast rustRound_le hLarg0 hLarg100
  rcases eq_or_ne MX MN with heq | hne
  · rw [if_neg (not_not_intro heq)]
    exact ⟨le_refl 0, by norm_num, le_refl 0, by norm_num, hL0, hL100⟩
  · rw [if_pos hne]
    have hlt : MN < MX := lt_of_le_of_ne hMNMX (Ne.symm hne)
    have hdpos : 0 < MX - MN := sub_pos.mpr hlt
    have hMN1 : MN < 1 := lt_of_lt_of_le hlt hMX1
    have hden2 : 0 < 2 - MX - MN := by linarith
    have hMXpos : 0 < MX := lt_of_le_of_lt hMN0 hlt
    set L : ℚ := ((rustRound ((MX + MN) / 2 * 100) : ℤ) : ℚ) with hLdef
    set S0 : ℚ := if 50 < L then (MX - MN) / (2 - MX - MN) * 100
        else (MX - MN) / (MX + MN) * 100 with hS0def
    set H0 : ℚ := if MX = R then (G - B) / (MX - MN) + (if G < B then 6 else 0)
        else if MX = G then (B - R) / (MX - MN) + 2
        else if MX = B then (R - G) / (MX - MN) + 4
        else 0 with hH0def
    have hS : 0 ≤ S0 ∧ S0 ≤ 100 := by
      rw [hS0def]
      split_ifs with h50
      · constructor
        · have h1 : 0 ≤ (MX - MN) / (2 - MX - MN) := div_nonneg (by linarith) (by linarith)
          linarith
        · have h1 : (MX - MN) / (2 - MX - MN) ≤ 1 := (div_le_one hden2).mpr (by linarith)
          linarith
      · constructor
        · have h1 : 0 ≤ (MX - MN) / (MX + MN) := div_nonneg (by linarith) (by linarith)
          linarith
        · have h1 : (MX - MN) / (MX + MN) ≤ 1 := (div_le_one (by linarith)).mpr (by linarith)
          linarith
    have hH : 0 ≤ H0 ∧ H0 ≤ 6 := by
      rw [hH0def]
      split_ifs with hmr hgb hmg hmb
      · have hlow : -1 ≤ (G - B) / (MX - MN) := (le_div_iff₀ hdpos).mpr (by linarith)
        have hhigh : (G - B) / (MX - MN) ≤ 0 :=
          div_nonpos_iff.mpr (Or.inr ⟨by linarith, by linarith⟩)
        constructor <;> linarith
      · have hlow : 0 ≤ (G - B) / (MX - MN) :=
          div_nonneg (by linarith [le_of_not_lt hgb]) hdpos.le
        have hhigh : (G - B) / (MX - MN) ≤ 1 := (div_le_one hdpos).mpr (by linarith)
        constructor <;> linarith
      · have hlow : -1 ≤ (B - R) / (MX - MN) := (le_div_iff₀ hdpos).mpr (by linarith)
        have hhigh : (B - R) / (MX - MN) ≤ 1 := (div_le_one hdpos).mpr (by linarith)
        constructor <;> linarith
      · have hlow : -1 ≤ (R - G) / (MX - MN) := (le_div_iff₀ hdpos).mpr (by linarith)
        have hhigh : (R - G) / (MX - MN) ≤ 1 := (div_le_one hdpos).mpr (by linarith)
        constructor <;> linarith
      · constructor <;> norm_num
    have h60 : (0 : ℚ) ≤ 60 := by norm_num
    have hHa : 0 ≤ H0 * 60 := mul_nonneg hH.1 h60
    have hHb : H0 * 60 ≤ ((360 : ℤ) : ℚ) := by
      have h2 := mul_le_mul_of_nonneg_right hH.2 h60
      push_cast
      linarith
    have hSb : S0 ≤ ((100 : ℤ) : ℚ) := by push_cast; linarith [hS.2]
    refine ⟨?_, ?_, ?_, ?_, hL0, hL100⟩
    · show (0 : ℚ) ≤ ((rustRound (H0 * 60) : ℤ) : ℚ)
      exact_mod_cast rustRound_nonneg hHa
    · show ((rustRound (H0 * 60) : ℤ) : ℚ) ≤ 360
      exact_mod_cast rustRound_le hHa hHb
    · show (0 : ℚ) ≤ ((rustRound S0 : ℤ) : ℚ)
      exact_mod_cast rustRound_nonneg hS.1
    · show ((rustRound S0 : ℤ) : ℚ) ≤ 100
      exact_mod_cast rustRound_le hS.1 hSb

lemma from_rgb_eq_hslSpec (c : ARGB) : HSL.from_rgb c = hslSpec c := by
  simp only [HSL.from_rgb, hslSpec]
  set R : ℚ := (c.r.val : ℚ) / 255
  set G : ℚ := (c.g.val : ℚ) / 255
  set B : ℚ := (c.b.val : ℚ) / 255
  set MX : ℚ := fmax (fmax R G) B with hMXdef
  set MN : ℚ := fmin (fmin R G) B with hMNdef
  set L : ℚ := ((rustRound ((MX + MN) / 2 * 100) : ℤ) : ℚ) with hLdef
  rcases eq_or_ne MX MN with heq | hne
  · rw [if_neg (not_not_intro heq), if_pos heq]
  · rw [if_pos hne, if_neg hne]
    have hs_eq : (if 50 < L then (MX - MN) / (2 - MX - MN) * 100
          else (MX - MN) / (MX + MN) * 100)
        = (if 50 < L then (MX - MN) / (2 - MX - MN) else (MX - MN) / (MX + MN)) * 100 := by
      split_ifs <;> ring
    have hh_eq : (if MX = R then (G - B) / (MX - MN) + (if G < B then 6 else 0)
          else if MX = G then (B - R) / (MX - MN) + 2
          else if MX = B then (R - G) / (MX - MN) + 4
          else 0)
        = (if MX = R then (G - B) / (MX - MN) + (if G < B then 6 else 0)
          else if MX = G then (B - R) / (MX - MN) + 2
          else (R - G) / (MX - MN) + 4) := by
      by_cases hmr : MX = R
      · rw [if_pos hmr, if_pos hmr]
      by_cases hmg : MX = G
      · rw [if_neg hmr, if_neg hmr, if_pos hmg, if_pos hmg]
      have hmb : MX = B := by
        rcases fmax_choice (fmax R G) B with h | h
        · rcases fmax_choice R G with h2 | h2
          · exact absurd (hMXdef.trans (h.trans h2)) hmr
          · exact absurd (hMXdef.trans (h.trans h2)) hmg
        · exact hMXdef.trans h
      rw [if_neg hmr, if_neg hmr, if_neg hmg, if_neg hmg, if_pos hmb]
    rw [hs_eq, hh_eq]

lemma from_rgb_achromatic (a v : Fin 256) :
    (HSL.from_rgb (ARGB.new a v v v)).h = 0
    ∧ (HSL.from_rgb (ARGB.new a v v v)).s = 0 := by
  simp [HSL.from_rgb, ARGB.new, fmax, fmin]

lemma from_rgb_reference_vector :
    HSL.from_rgb (ARGB.new (byte 255) (byte 14) (byte 115) (byte 123))
      = ⟨184, 80, 27⟩ := by
  norm_num [HSL.from_rgb, ARGB.new, byte_val, fmax, fmin, rustRound, Int.ceil_eq_iff]

/-- Claim C2: `HSL::from_rgb` computes exactly the section 4.2 reference
algorithm, stated as the refinement to `hslSpec`; every color with equal
red, green and blue channels is achromatic with hue 0 and saturation 0;
and the function reproduces the reference vector
(14,115,123) to hue 184, saturation 80, lightness 27. -/
theorem from_rgb_matches_spec_algorithm :
    (∀ c : ARGB, HSL.from_rgb c = hslSpec c)
    ∧ (∀ a v : Fin 256, (HSL.from_rgb (ARGB.new a v v v)).h = 0
        ∧ (HSL.from_rgb (ARGB.new a v v v)).s = 0)
    ∧ HSL.from_rgb (ARGB.new (byte 255) (byte 14) (byte 115) (byte 123))
        = ⟨184, 80, 27⟩ :=
  ⟨from_rgb_eq_hslSpec, from_rgb_achromatic, from_rgb_reference_vector⟩

/-- Round a rational to the nearest integer, ties to even: the rounding of
IEEE round-to-nearest applied to a scaled significand. -/
def rneInt (y : ℚ) : ℤ :=
  if y - ⌊y⌋ < 1 / 2 then ⌊y⌋
  else if 1 / 2 < y - ⌊y⌋ then ⌊y⌋ + 1
  else if ⌊y⌋ % 2 = 0 then ⌊y⌋ else ⌊y⌋ + 1

lemma rneInt_err (y : ℚ) : |(rneInt y : ℚ) - y| ≤ 1 / 2 := by
  have h1 : (⌊y⌋ : ℚ) ≤ y := Int.floor_le y
  have h2 : y < ⌊y⌋ + 1 := Int.lt_floor_add_one y
  unfold rneInt
  split_ifs with ha hb hc
  · rw [abs_le]; constructor <;> linarith
  · rw [abs_le]; push_cast; constructor <;> linarith
  · rw [abs_le]; constructor <;> linarith
  · rw [abs_le]; push_cast; constructor <;> linarith

/-- Binary32 round to nearest, ties to even: a nonzero rational is rounded
on the grid of spacing `2 ^ (e - 23)` where `2 ^ e ≤ |x| < 2 ^ (e + 1)`,
that is, to 24 bits of precision. Gradual underflow and overflow of IEEE
binary32 lie outside the magnitudes reached by the statements below. -/
def rnd32 (x : ℚ) : ℚ :=
  if x = 0 then 0
  else if 0 < x then
    (rneInt (x / 2 ^ (Int.log 2 x - 23)) : ℚ) * 2 ^ (Int.log 2 x - 23)
  else
    -((rneInt (-x / 2 ^ (Int.log 2 (-x) - 23)) : ℚ) * 2 ^ (Int.log 2 (-x) - 23))

lemma rnd32_zero : rnd32 0 = 0 := by simp [rnd32]

lemma rne_scale_err (y u : ℚ) (hu : 0 < u) :
    |(rneInt y : ℚ) * u - y * u| ≤ u / 2 := by
  rw [← sub_mul, abs_mul, abs_of_pos hu]
  calc |(rneInt y : ℚ) - y| * u ≤ 1 / 2 * u :=
        mul_le_mul_of_nonneg_right (rneInt_err y) hu.le
  _ = u / 2 := by ring

lemma rnd32_err {x : ℚ} (hx : 0 ≤ x) : |rnd32 x - x| ≤ x / 16777216 := by
  rcases eq_or_lt_of_le hx with h | h
  · rw [← h, rnd32_zero]
    norm_num
  · have hne : x ≠ 0 := ne_of_gt h
    rw [rnd32, if_neg hne, if_pos h]
    set e : ℤ := Int.log 2 x with he
    have hu : (0 : ℚ) < 2 ^ (e - 23) := by positivity
    have hlow : (2 : ℚ) ^ e ≤ x := by
      have hb := Int.zpow_log_le_self (b := 2) (R := ℚ) (by norm_num) h
      rw [he]
      exact_mod_cast hb
    have hxy : x / 2 ^ (e - 23) * 2 ^ (e - 23) = x := by field_simp
    have key := rne_scale_err (x / 2 ^ (e - 23)) (2 ^ (e - 23)) hu
    rw [hxy] at key
    have hgrid : (2 : ℚ) ^ (e - 23) / 2 ≤ x / 16777216 := by
      rw [div_le_div_iff₀ (by norm_num) (by norm_num : (0 : ℚ) < 16777216)]
      have hsplit : (2 : ℚ) ^ (e - 23) * 16777216 = 2 ^ e * 2 := by
        rw [show (16777216 : ℚ) = 2 ^ (24 : ℤ) from by norm_num,
          ← zpow_add₀ (by norm_num : (2 : ℚ) ≠ 0),
          show e - 23 + 24 = e + 1 from by ring,
          zpow_add_one₀ (by norm_num : (2 : ℚ) ≠ 0)]
      rw [hsplit]
      linarith
    exact key.trans hgrid

lemma rnd32_nonneg {x : ℚ} (hx : 0 ≤ x) : 0 ≤ rnd32 x := by
  have h := abs_le.mp (rnd32_err hx)
  have h2 : x / 16777216 ≤ x := div_le_self hx (by norm_num)
  linarith [h.1]

lemma rnd32_eval {x : ℚ} {e : ℤ} (h1 : (2 : ℚ) ^ e ≤ x) (h2 : x < 2 ^ (e + 1)) :
    rnd32 x = (rneInt (x / 2 ^ (e - 23)) : ℚ) * 2 ^ (e - 23) := by
  have hx : 0 < x := lt_of_lt_of_le (by positivity) h1
  have he : Int.log 2 x = e := by
    have hle : e ≤ Int.log 2 x :=
      (Int.zpow_le_iff_le_log (by norm_num) hx).mp (by exact_mod_cast h1)
    have hge : Int.log 2 x ≤ e := by
      by_contra hcon
      push_neg at hcon
      have hstep : (2 : ℚ) ^ (e + 1) ≤ x := by
        have hc := (Int.zpow_le_iff_le_log (b := 2) (R := ℚ) (by norm_num) hx).mpr
          (by omega : e + 1 ≤ Int.log 2 x)
        exact_mod_cast hc
      linarith
    omega
  rw [rnd32, if_neg hx.ne', if_pos hx, he]

/-- The helper `lerp` of `ARGB::interpolate` with the binary32 roundings of
the finite-amount evaluation made explicit: the subtraction `1.0 - x`, the
two multiplications and the addition each round to nearest, ties to even,
at 24 bits of precision; `f32::ceil` and the saturating cast are exact and
reuse `F.ceil` and `F.toU8`. -/
def lerp32 (a b : Fin 256) (x : ℚ) : Fin 256 :=
  F.toU8 (F.ceil (F.fin
    (rnd32 (rnd32 (rnd32 (1 - x) * (a.val : ℚ)) + rnd32 (x * (b.val : ℚ))))))

/-- The method `ARGB::interpolate` over a finite amount, with the binary32
roundings made explicit through `lerp32`; the alpha channel is taken from
`self` exactly as in the source. -/
def ARGB.interpolate32 (self other : ARGB) (amount : ℚ) : ARGB :=
  { a := self.a
    r := lerp32 self.r other.r amount
    g := lerp32 self.g other.g amount
    b := lerp32 self.b other.b amount }

set_option maxHeartbeats 1000000 in
lemma lerp32_within_one (a b : Fin 256) (q : ℚ) (h0 : 0 ≤ q) (h1 : q ≤ 1) :
    ⌈(1 - q) * (a.val : ℚ) + q * (b.val : ℚ)⌉ - 1 ≤ ((lerp32 a b q).val : ℤ)
    ∧ ((lerp32 a b q).val : ℤ) ≤ ⌈(1 - q) * (a.val : ℚ) + q * (b.val : ℚ)⌉ + 1 := by
  have ha0 : (0 : ℚ) ≤ (a.val : ℚ) := by positivity
  have hb0 : (0 : ℚ) ≤ (b.val : ℚ) := by positivity
  have ha255 := channel_cast_le a
  have hb255 := channel_cast_le b
  simp only [lerp32]
  set A : ℚ := (a.val : ℚ) with hA
  set B : ℚ := (b.val : ℚ) with hB
  set s : ℚ := rnd32 (1 - q) with hs
  set p1 : ℚ := rnd32 (s * A) with hp1
  set p2 : ℚ := rnd32 (q * B) with hp2
  set w : ℚ := rnd32 (p1 + p2) with hw
  set v : ℚ := (1 - q) * A + q * B with hv
  have hq1 : (0 : ℚ) ≤ 1 - q := by linarith
  have es : |s - (1 - q)| ≤ (1 - q) / 16777216 := by rw [hs]; exact rnd32_err hq1
  have es' := abs_le.mp es
  have hs0 : 0 ≤ s := by rw [hs]; exact rnd32_nonneg hq1
  have hsle : s ≤ 1 + 1 / 16777216 := by
    have hd : (1 - q) / 16777216 ≤ 1 / 16777216 := by linarith
    linarith [es'.2]
  have hsA0 : 0 ≤ s * A := mul_nonneg hs0 ha0
  have hsA : s * A ≤ 256 := by
    calc s * A ≤ (1 + 1 / 16777216) * 255 :=
          mul_le_mul hsle ha255 ha0 (by norm_num)
    _ ≤ 256 := by norm_num
  have ep1 : |p1 - s * A| ≤ s * A / 16777216 := by rw [hp1]; exact rnd32_err hsA0
  have ep1' := abs_le.mp ep1
  have hp1b : s * A / 16777216 ≤ 256 / 16777216 := by linarith
  have hp1_0 : 0 ≤ p1 := by rw [hp1]; exact rnd32_nonneg hsA0
  have hp1le : p1 ≤ 257 := by linarith [ep1'.2]
  have hqB0 : 0 ≤ q * B := mul_nonneg h0 hb0
  have hqB : q * B ≤ 255 := by
    calc q * B ≤ 1 * B := mul_le_mul_of_nonneg_right h1 hb0
    _ ≤ 255 := by linarith
  have ep2 : |p2 - q * B| ≤ q * B / 16777216 := by rw [hp2]; exact rnd32_err hqB0
  have ep2' := abs_le.mp ep2
  have hp2b : q * B / 16777216 ≤ 255 / 16777216 := by linarith
  have hp2_0 : 0 ≤ p2 := by rw [hp2]; exact rnd32_nonneg hqB0
  have hp2le : p2 ≤ 256 := by linarith [ep2'.2]
  have hsum0 : 0 ≤ p1 + p2 := by linarith
  have ew : |w - (p1 + p2)| ≤ (p1 + p2) / 16777216 := by rw [hw]; exact rnd32_err hsum0
  have ew' := abs_le.mp ew
  clear_value A B s p1 p2 w v
  have hwb : (p1 + p2) / 16777216 ≤ 513 / 16777216 := by linarith
  have hdA4 : ((1 - q) / 16777216) * A ≤ 255 / 16777216 := by
    calc ((1 - q) / 16777216) * A ≤ (1 / 16777216) * 255 :=
          mul_le_mul (by linarith) ha255 ha0 (by norm_num)
    _ = 255 / 16777216 := by norm_num
  have hdA_up : (s - (1 - q)) * A ≤ 255 / 16777216 := by
    calc (s - (1 - q)) * A ≤ ((1 - q) / 16777216) * A :=
          mul_le_mul_of_nonneg_right es'.2 ha0
    _ ≤ 255 / 16777216 := hdA4
  have hdA_lo : -(255 / 16777216) ≤ (s - (1 - q)) * A := by
    have h2 : (-((1 - q) / 16777216)) * A ≤ (s - (1 - q)) * A :=
      mul_le_mul_of_nonneg_right es'.1 ha0
    have h3 : (-((1 - q) / 16777216)) * A = -(((1 - q) / 16777216) * A) := by ring
    linarith [hdA4]
  have hdecomp : w - v
      = (w - (p1 + p2)) + (p1 - s * A) + (p2 - q * B) + ((s - (1 - q)) * A) := by
    rw [hv]; ring
  have hwv_up : w - v ≤ 1 / 2 := by
    linarith [hdecomp, ew'.2, ep1'.2, ep2'.2, hdA_up, hwb, hp1b, hp2b]
  have hwv_lo : -(1 / 2) ≤ w - v := by
    linarith [hdecomp, ew'.1, ep1'.1, ep2'.1, hdA_lo, hwb, hp1b, hp2b]
  have hv0 : 0 ≤ v := by
    rw [hv]; exact add_nonneg (mul_nonneg hq1 ha0) (mul_nonneg h0 hb0)
  have hv255 : v ≤ 255 := by
    rw [hv]
    have t1 : (1 - q) * A ≤ (1 - q) * 255 := mul_le_mul_of_nonneg_left ha255 hq1
    have t2 : q * B ≤ q * 255 := mul_le_mul_of_nonneg_left hb255 h0
    linarith
  have hcv_le : ⌈v⌉ ≤ 255 := Int.ceil_le.mpr (by exact_mod_cast hv255)
  have hcv_0 : (0 : ℤ) ≤ ⌈v⌉ := Int.ceil_nonneg hv0
  have hm_le : ⌈w⌉ ≤ ⌈v⌉ + 1 := by
    apply Int.ceil_le.mpr
    have hvc := Int.le_ceil v
    push_cast
    linarith
  have hm_ge : ⌈v⌉ - 1 ≤ ⌈w⌉ := by
    have hwc := Int.le_ceil w
    have hvm : v ≤ ((⌈w⌉ + 1 : ℤ) : ℚ) := by push_cast; linarith
    have := Int.ceil_le.mpr hvm
    omega
  have hm0 : (0 : ℤ) ≤ ⌈w⌉ := by
    have hneg : ((-1 : ℤ) : ℚ) < w := by push_cast; linarith
    have := Int.lt_ceil.mpr hneg
    omega
  simp only [F.ceil]
  set m : ℤ := ⌈w⌉ with hm
  simp only [F.toU8]
  rw [if_neg (not_lt.mpr (by exact_mod_cast hm0 : (0 : ℚ) ≤ (m : ℚ)))]
  by_cases hbig : (255 : ℚ) < (m : ℚ)
  · rw [dif_pos hbig]
    have hm255 : (255 : ℤ) < m := by exact_mod_cast hbig
    constructor
    · show ⌈v⌉ - 1 ≤ (((255 : Fin 256)).val : ℤ)
      rw [show (((255 : Fin 256)).val : ℤ) = 255 from rfl]
      omega
    · show (((255 : Fin 256)).val : ℤ) ≤ ⌈v⌉ + 1
      rw [show (((255 : Fin 256)).val : ℤ) = 255 from rfl]
      omega
  · rw [dif_neg hbig]
    have hfloor : ⌊(m : ℚ)⌋ = m := Int.floor_intCast m
    constructor
    · show ⌈v⌉ - 1 ≤ ((⌊(m : ℚ)⌋.toNat : ℕ) : ℤ)
      rw [hfloor, Int.toNat_of_nonneg hm0]
      exact hm_ge
    · show ((⌊(m : ℚ)⌋.toNat : ℕ) : ℤ) ≤ ⌈v⌉ + 1
      rw [hfloor, Int.toNat_of_nonneg hm0]
      exact hm_le

lemma byte0_cast : ((byte 0).val : ℚ) = 0 := by norm_num [byte_val]

lemma byte3_cast : ((byte 3).val : ℚ) = 3 := by norm_num [byte_val]

lemma rnd32_third_times_three :
    rnd32 ((11184811 / 33554432 : ℚ) * 3) = 1 := by
  rw [rnd32_eval (e := 0) (by norm_num) (by norm_num)]
  rw [show (2 : ℚ) ^ ((0 : ℤ) - 23) = 1 / 8388608 from by norm_num]
  norm_num [rneInt]

lemma rnd32_one : rnd32 (1 : ℚ) = 1 := by
  rw [rnd32_eval (e := 0) (by norm_num) (by norm_num)]
  rw [show (2 : ℚ) ^ ((0 : ℤ) - 23) = 1 / 8388608 from by norm_num]
  norm_num [rneInt]

lemma lerp32_third_eval :
    ((lerp32 (byte 0) (byte 3) (11184811 / 33554432)).val : ℤ) = 1 := by
  have e1 : rnd32 (rnd32 (1 - (11184811 / 33554432 : ℚ)) * ((byte 0).val : ℚ)) = 0 := by
    rw [byte0_cast, mul_zero, rnd32_zero]
  have e2 : rnd32 ((11184811 / 33554432 : ℚ) * ((byte 3).val : ℚ)) = 1 := by
    rw [byte3_cast]
    exact rnd32_third_times_three
  simp only [lerp32, e1, e2, zero_add, rnd32_one, F.ceil]
  norm_num [F.toU8]

/-- Counterexample to claim C4: at the amount nearest one third in
binary32, 11184811 / 2^25, with channels 0 and 3, the rounded product
3 * amount is exactly 1, so the code returns 1 while the exact ceiling
formula gives 2. -/
theorem interpolate32_ceil_counterexample :
    ((ARGB.interpolate32 (ARGB.new (byte 255) (byte 0) (byte 0) (byte 0))
        (ARGB.new (byte 255) (byte 3) (byte 0) (byte 0)) (11184811 / 33554432)).r.val : ℤ) = 1
    ∧ ⌈(1 - (11184811 / 33554432 : ℚ))
          * (((ARGB.new (byte 255) (byte 0) (byte 0) (byte 0)).r.val : ℚ))
        + (11184811 / 33554432 : ℚ)
          * (((ARGB.new (byte 255) (byte 3) (byte 0) (byte 0)).r.val : ℚ))⌉ = 2
    ∧ ((ARGB.interpolate32 (ARGB.new (byte 255) (byte 0) (byte 0) (byte 0))
        (ARGB.new (byte 255) (byte 3) (byte 0) (byte 0)) (11184811 / 33554432)).r.val : ℤ)
      ≠ ⌈(1 - (11184811 / 33554432 : ℚ))
          * (((ARGB.new (byte 255) (byte 0) (byte 0) (byte 0)).r.val : ℚ))
        + (11184811 / 33554432 : ℚ)
          * (((ARGB.new (byte 255) (byte 3) (byte 0) (byte 0)).r.val : ℚ))⌉ := by
  have h1 : ((ARGB.interpolate32 (ARGB.new (byte 255) (byte 0) (byte 0) (byte 0))
      (ARGB.new (byte 255) (byte 3) (byte 0) (byte 0)) (11184811 / 33554432)).r.val : ℤ) = 1 :=
    lerp32_third_eval
  have h2 : ⌈(1 - (11184811 / 33554432 : ℚ))
        * (((ARGB.new (byte 255) (byte 0) (byte 0) (byte 0)).r.val : ℚ))
      + (11184811 / 33554432 : ℚ)
        * (((ARGB.new (byte 255) (byte 3) (byte 0) (byte 0)).r.val : ℚ))⌉ = 2 := by
    norm_num [ARGB.new, byte_val, Int.ceil_eq_iff]
  refine ⟨h1, h2, ?_⟩
  rw [h1, h2]
  decide

/-- Claim C4 as amended: for every amount in [0,1] each of the red, green
and blue output channels of `interpolate`, computed with the binary32
roundings of the subtraction, the two multiplications and the addition,
lies within one of the exact ceiling of `(1 - amount) * self +
amount * other`; the ceiling is applied to the computed value, and the
alpha channel equals the alpha of `self` for every amount. -/
theorem interpolate32_ceil_within_one (x y : ARGB) (q : ℚ) (h0 : 0 ≤ q) (h1 : q ≤ 1) :
    (⌈(1 - q) * (x.r.val : ℚ) + q * (y.r.val : ℚ)⌉ - 1 ≤ ((x.interpolate32 y q).r.val : ℤ)
      ∧ ((x.interpolate32 y q).r.val : ℤ) ≤ ⌈(1 - q) * (x.r.val : ℚ) + q * (y.r.val : ℚ)⌉ + 1)
    ∧ (⌈(1 - q) * (x.g.val : ℚ) + q * (y.g.val : ℚ)⌉ - 1 ≤ ((x.interpolate32 y q).g.val : ℤ)
      ∧ ((x.interpolate32 y q).g.val : ℤ) ≤ ⌈(1 - q) * (x.g.val : ℚ) + q * (y.g.val : ℚ)⌉ + 1)
    ∧ (⌈(1 - q) * (x.b.val : ℚ) + q * (y.b.val : ℚ)⌉ - 1 ≤ ((x.interpolate32 y q).b.val : ℤ)
      ∧ ((x.interpolate32 y q).b.val : ℤ) ≤ ⌈(1 - q) * (x.b.val : ℚ) + q * (y.b.val : ℚ)⌉ + 1)
    ∧ ∀ am : ℚ, (x.interpolate32 y am).a = x.a :=
  ⟨lerp32_within_one x.r y.r q h0 h1, lerp32_within_one x.g y.g q h0 h1,
    lerp32_within_one x.b y.b q h0 h1, fun _ => rfl⟩

/-- Witness for the amended C4 at amount one half. -/
theorem interpolate32_ceil_within_one_witness :
    (⌈(1 - (1 / 2 : ℚ)) * (((ARGB.new (byte 255) (byte 10) (byte 20) (byte 30)).r.val : ℚ))
          + (1 / 2 : ℚ) * (((ARGB.new (byte 0) (byte 101) (byte 200) (byte 50)).r.val : ℚ))⌉ - 1
        ≤ (((ARGB.new (byte 255) (byte 10) (byte 20) (byte 30)).interpolate32
            (ARGB.new (byte 0) (byte 101) (byte 200) (byte 50)) (1 / 2)).r.val : ℤ)
      ∧ (((ARGB.new (byte 255) (byte 10) (byte 20) (byte 30)).interpolate32
            (ARGB.new (byte 0) (byte 101) (byte 200) (byte 50)) (1 / 2)).r.val : ℤ)
        ≤ ⌈(1 - (1 / 2 : ℚ)) * (((ARGB.new (byte 255) (byte 10) (byte 20) (byte 30)).r.val : ℚ))
          + (1 / 2 : ℚ) * (((ARGB.new (byte 0) (byte 101) (byte 200) (byte 50)).r.val : ℚ))⌉ + 1)
    ∧ (⌈(1 - (1 / 2 : ℚ)) * (((ARGB.new (byte 255) (byte 10) (byte 20) (byte 30)).g.val : ℚ))
          + (1 / 2 : ℚ) * (((ARGB.new (byte 0) (byte 101) (byte 200) (byte 50)).g.val : ℚ))⌉ - 1
        ≤ (((ARGB.new (byte 255) (byte 10) (byte 20) (byte 30)).interpolate32
            (ARGB.new (byte 0) (byte 101) (byte 200) (byte 50)) (1 / 2)).g.val : ℤ)
      ∧ (((ARGB.new (byte 255) (byte 10) (byte 20) (byte 30)).interpolate32
            (ARGB.new (byte 0) (byte 101) (byte 200) (byte 50)) (1 / 2)).g.val : ℤ)
        ≤ ⌈(1 - (1 / 2 : ℚ)) * (((ARGB.new (byte 255) (byte 10) (byte 20) (byte 30)).g.val : ℚ))
          + (1 / 2 : ℚ) * (((ARGB.new (byte 0) (byte 101) (byte 200) (byte 50)).g.val : ℚ))⌉ + 1)
    ∧ (⌈(1 - (1 / 2 : ℚ)) * (((ARGB.new (byte 255) (byte 10) (byte 20) (byte 30)).b.val : ℚ))
          + (1 / 2 : ℚ) * (((ARGB.new (byte 0) (byte 101) (byte 200) (byte 50)).b.val : ℚ))⌉ - 1
        ≤ (((ARGB.new (byte 255) (byte 10) (byte 20) (byte 30)).interpolate32
            (ARGB.new (byte 0) (byte 101) (byte 200) (byte 50)) (1 / 2)).b.val : ℤ)
      ∧ (((ARGB.new (byte 255) (byte 10) (byte 20) (byte 30)).interpolate32
            (ARGB.new (byte 0) (byte 101) (byte 200) (byte 50)) (1 / 2)).b.val : ℤ)
        ≤ ⌈(1 - (1 / 2 : ℚ)) * (((ARGB.new (byte 255) (byte 10) (byte 20) (byte 30)).b.val : ℚ))
          + (1 / 2 : ℚ) * (((ARGB.new (byte 0) (byte 101) (byte 200) (byte 50)).b.val : ℚ))⌉ + 1)
    ∧ ∀ am : ℚ, ((ARGB.new (byte 255) (byte 10) (byte 20) (byte 30)).interpolate32
        (ARGB.new (byte 0) (byte 101) (byte 200) (byte 50)) am).a
      = (ARGB.new (byte 255) (byte 10) (byte 20) (byte 30)).a :=
  interpolate32_ceil_within_one (ARGB.new (byte 255) (byte 10) (byte 20) (byte 30))
    (ARGB.new (byte 0) (byte 101) (byte 200) (byte 50)) (1 / 2) (by norm_num) (by norm_num)
